import Mathlib

/-!
Shallow embedding of the Wizard card-game rules engine
(`src/game_logic/{card,apprentice,trick,round}.py`) and proofs about it.

Conventions of the embedding:
* The four real card colors form `Color`; the Python `CardColor.NONE`
  (colorless, carried by special cards) is represented as `none` in an
  `Option Color`, matching the fact that a colorless card never compares
  equal to a real color.
* Python `Optional[CardColor]` arguments (trump color, led color) become
  `Option Color`; in every call site of the source these are either `None`
  or one of the four real colors.
* Players (`Apprentice` identities) are represented by their index in the
  round's player list (`Player := Nat`); object identity in Python becomes
  index equality.  Apprentice fields not involved in any claim
  (`name`, `experience_points`, `is_dealer`, `is_confidant`) are omitted.
* Methods that may raise become `Except Err`-valued functions, with one
  `Err` constructor per distinct Python exception condition; methods
  returning a validity `bool` keep it in the `.ok` payload.
* The side effect `winner.win_trick()` inside `Trick.complete_trick`
  mutates an `Apprentice`, not the trick; in the embedding the trick-level
  function returns the winner and the round-level caller applies
  `win_trick` to its roster, preserving the observable state of both.
-/

namespace Wizard

/-- The four real colors of the game (Python `CardColor` minus `NONE`). -/
inductive Color where
  | humans
  | elves
  | dwarves
  | giants
deriving DecidableEq, Repr

/-- A card: a regular colored card with value, a Wizard, or a Fool.
The constructor shape encodes the invariants the Python `Card.__init__`
enforces (regular cards carry a color and value, specials carry neither). -/
inductive Card where
  | regular (color : Color) (value : Nat)
  | wizard
  | fool
deriving DecidableEq, Repr

/-- One constructor per distinct exception condition raised by the source
(`ValueError` and `IndexError` messages). -/
inductive Err where
  | trickComplete      -- Trick.play_card: trick is already complete
  | alreadyPlayed      -- Trick.play_card: apprentice has already played
  | indexOutOfRange    -- Apprentice.play_card / list indexing: IndexError
  | negativePrediction -- Apprentice.make_prediction: prediction negative
  | noPrediction       -- Apprentice.calculate_round_points: no prediction
  | wrongPhase         -- Round operations called in the wrong phase
  | notYourTurn        -- Round.play_card: not the acting apprentice turn
  | noActiveTrick      -- Round.play_card: no current trick
  | noWinner           -- Round.play_card: next-trick leader missing
deriving DecidableEq, Repr

deriving instance DecidableEq for Except

namespace Card

/-- Python `card.color`: the color attribute, `CardColor.NONE ↦ none`. -/
def color : Card → Option Color
  | .regular c _ => some c
  | .wizard => none
  | .fool => none

/-- Python `card.card_type == CardType.WIZARD`. -/
def isWizard : Card → Bool
  | .wizard => true
  | _ => false

/-- Python `card.card_type == CardType.FOOL`. -/
def isFool : Card → Bool
  | .fool => true
  | _ => false

/-- Python `card.card_type == CardType.REGULAR`. -/
def isRegular : Card → Bool
  | .regular _ _ => true
  | _ => false

/-- Embedding of `Card.is_higher_than(self, other, trump_color, led_color)`
from `card.py`, clause for clause: Wizard always highest (self checked
first), Fool always lowest (self checked first), then the
regular-vs-regular if-chain on trump, equal color, and led color. -/
def is_higher_than (self other : Card) (trump led : Option Color) : Bool :=
  match self, other with
  | .wizard, _ => true
  | _, .wizard => false
  | .fool, _ => false
  | _, .fool => true
  | .regular sc sv, .regular oc ov =>
    if some sc = trump ∧ some oc ≠ trump then true
    else if some sc ≠ trump ∧ some oc = trump then false
    else if sc = oc then decide (sv > ov)
    else if some sc = led ∧ some oc ≠ led then true
    else false

end Card

/-- Apprentices are identified by their index in the round roster. -/
abbrev Player := Nat

/-- The per-round state of an apprentice (`apprentice.py`): the hand, the
optional prediction, and the tricks-won counter. -/
structure Apprentice where
  hand : List Card
  prediction : Option Int
  tricks_won : Nat
deriving DecidableEq, Repr

namespace Apprentice

/-- `Apprentice.make_prediction`: rejects a negative prediction with a
`ValueError`, otherwise records it (overwriting any previous value). -/
def make_prediction (a : Apprentice) (p : Int) : Except Err Apprentice :=
  if p < 0 then .error .negativePrediction
  else .ok { a with prediction := some p }

/-- `Apprentice.play_card`: `IndexError` when the index is out of range,
otherwise pops and returns the card at that hand position. -/
def play_card (a : Apprentice) (i : Nat) : Except Err (Card × Apprentice) :=
  match a.hand.get? i with
  | none => .error .indexOutOfRange
  | some card => .ok (card, { a with hand := a.hand.eraseIdx i })

/-- `Apprentice.can_follow_color`: does the hand hold a card of `c`? -/
def can_follow_color (a : Apprentice) (c : Color) : Bool :=
  a.hand.any (fun card => card.color == some c)

/-- `Apprentice.win_trick`: increment the tricks-won counter. -/
def win_trick (a : Apprentice) : Apprentice :=
  { a with tricks_won := a.tricks_won + 1 }

/-- `Apprentice.calculate_round_points`: `ValueError` without a
prediction; `20 + 10 * tricks_won` on an exact prediction, otherwise
`-10 * abs(prediction - tricks_won)`. -/
def calculate_round_points (a : Apprentice) : Except Err Int :=
  match a.prediction with
  | none => .error .noPrediction
  | some p =>
    if p = (a.tricks_won : Int) then .ok (20 + 10 * (a.tricks_won : Int))
    else .ok (-10 * ((p - (a.tricks_won : Int)).natAbs : Int))

end Apprentice

/-- The enumeration loop inside `Apprentice.get_playable_cards`: indices
(counting from `k`) of cards that match the led color or are colorless. -/
def playableAux (led : Color) : List Card → Nat → List Nat
  | [], _ => []
  | card :: rest, k =>
    if card.color == some led || card.color == none
    then k :: playableAux led rest (k + 1)
    else playableAux led rest (k + 1)

/-- `Apprentice.get_playable_cards(led_color)`: all positions when no color
was led or the hand cannot follow it; otherwise positions of led-color or
colorless cards. -/
def Apprentice.get_playable_cards (a : Apprentice) (led : Option Color) : List Nat :=
  match led with
  | none => List.range a.hand.length
  | some c =>
    if ¬ a.can_follow_color c then List.range a.hand.length
    else playableAux c a.hand 0

/-- The state of one trick (`trick.py`): the leader, the trump color, the
insertion-ordered played cards (Python keeps them in an insertion-ordered
dict keyed by apprentice), the derived leading color, the winner attribute
and the completion flag. -/
structure Trick where
  leading_apprentice : Player
  trump_color : Option Color
  cards_played : List (Player × Card)
  leading_color : Option Color
  winner : Option Player
  is_complete : Bool
deriving DecidableEq, Repr

namespace Trick

/-- `Trick.__init__(leading_apprentice, trump_color)`. -/
def init (lead : Player) (trump : Option Color) : Trick :=
  { leading_apprentice := lead, trump_color := trump, cards_played := [],
    leading_color := none, winner := none, is_complete := false }

/-- `Trick.play_card`: rejects plays on a complete trick and duplicate
players with a `ValueError`; sets the leading color from the first card if
it is Regular, else from the second card if that one is Regular; records
the play at the end of the insertion order. -/
def play_card (t : Trick) (p : Player) (c : Card) : Except Err Trick :=
  if t.is_complete then .error .trickComplete
  else if t.cards_played.any (fun pc => pc.1 == p) then .error .alreadyPlayed
  else
    let lead :=
      if t.cards_played.isEmpty then
        if c.isRegular then c.color else t.leading_color
      else if t.leading_color = none ∧ t.cards_played.length = 1 then
        if c.isRegular then c.color else t.leading_color
      else t.leading_color
    .ok { t with leading_color := lead, cards_played := t.cards_played ++ [(p, c)] }

end Trick

/-- The `for` loop of `Trick.determine_winner` that tracks the running
highest non-Fool card (`highest_card` / `highest_apprentice`). -/
def findHighest (trump led : Option Color) :
    List (Player × Card) → Option (Player × Card) → Option (Player × Card)
  | [], best => best
  | (p, c) :: rest, best =>
    if c.isFool then findHighest trump led rest best
    else
      match best with
      | none => findHighest trump led rest (some (p, c))
      | some (bp, bc) =>
        if c.is_higher_than bc trump led then findHighest trump led rest (some (p, c))
        else findHighest trump led rest (some (bp, bc))

namespace Trick

/-- `Trick.determine_winner`: returns the (possibly updated) trick and the
winner.  All-Fool tricks return the first player *without assigning the
winner attribute* (the source `return next(iter(...))` skips the
assignment); a first Wizard or the running-best regular card assign it. -/
def determine_winner (t : Trick) : Trick × Option Player :=
  match t.cards_played with
  | [] => (t, none)
  | first :: _ =>
    if t.cards_played.all (fun pc => pc.2.isFool) then
      (t, some first.1)
    else
      match t.cards_played.find? (fun pc => pc.2.isWizard) with
      | some (p, _) => ({ t with winner := some p }, some p)
      | none =>
        match findHighest t.trump_color t.leading_color t.cards_played none with
        | some (p, _) => ({ t with winner := some p }, some p)
        | none => ({ t with winner := none }, none)

/-- `Trick.complete_trick`: set the completion flag, then determine the
winner (the `winner.win_trick()` apprentice mutation is applied by the
round-level caller). -/
def complete_trick (t : Trick) : Trick × Option Player :=
  ({ t with is_complete := true } : Trick).determine_winner

/-- `Trick.is_valid_play`: anything goes while no leading color is set or
for special cards or when the first card of the trick was a Wizard;
otherwise the leading color must be followed when possible. -/
def is_valid_play (t : Trick) (a : Apprentice) (c : Card) : Bool :=
  match t.leading_color with
  | none => true
  | some lc =>
    if c.isWizard || c.isFool then true
    else if (t.cards_played.head?.map (fun pc => pc.2.isWizard)).getD false then true
    else if c.color ≠ some lc ∧ a.can_follow_color lc then false
    else true

/-- Replay a sequence of `Trick.play_card` calls in order. -/
def applyPlays (t : Trick) : List (Player × Card) → Except Err Trick
  | [] => .ok t
  | (p, c) :: rest =>
    match t.play_card p c with
    | .error e => .error e
    | .ok t1 => t1.applyPlays rest

end Trick

/-- The leading-color policy exactly as the specification words it: the
first card sets it only if Regular; if the first left it undefined the
second sets it only if Regular; later cards never set it. -/
def leadOfFirstTwo : List (Player × Card) → Option Color
  | [] => none
  | (_, Card.regular c _) :: _ => some c
  | _ :: (_, Card.regular c _) :: _ => some c
  | _ => none

/-- Replace the element at position `n` (no-op when out of range). -/
def updateNth {α : Type} (l : List α) (n : Nat) (f : α → α) : List α :=
  match l, n with
  | [], _ => []
  | a :: rest, 0 => f a :: rest
  | a :: rest, m + 1 => a :: updateNth rest m f

/-- The phases of `round.py`. -/
inductive RoundPhase where
  | dealing
  | predicting
  | playing
  | scoring
  | complete
deriving DecidableEq, Repr

/-- The state of `round.py` (the deck and the drawn trump card object are
not needed by any claim; the trump color they induce is kept). -/
structure Round where
  round_number : Nat
  apprentices : List Apprentice
  dealer_index : Nat
  cards_per_apprentice : Nat
  trump_color : Option Color
  current_trick : Option Trick
  tricks_played : List Trick
  current_apprentice_index : Nat
  phase : RoundPhase
deriving DecidableEq, Repr

namespace Round

/-- `Round._start_first_trick`: the apprentice left of the dealer leads. -/
def start_first_trick (r : Round) : Round :=
  let fi := (r.dealer_index + 1) % r.apprentices.length
  { r with current_trick := some (Trick.init fi r.trump_color),
           current_apprentice_index := fi }

/-- `Round._start_next_trick(leading_apprentice)`: the given apprentice
leads; `apprentices.index(leading_apprentice)` is the index itself in the
index-based representation. -/
def start_next_trick (r : Round) (w : Player) : Round :=
  { r with current_trick := some (Trick.init w r.trump_color),
           current_apprentice_index := w }

/-- `Round.make_prediction(apprentice, prediction)`: `ValueError` outside
the predicting phase; out-of-range values are reported as `False` without
mutation; otherwise the prediction is recorded and, once every apprentice
has one, the phase moves to playing and the first trick starts. -/
def make_prediction (r : Round) (i : Player) (p : Int) : Except Err (Bool × Round) :=
  if r.phase ≠ .predicting then .error .wrongPhase
  else if p < 0 ∨ p > (r.cards_per_apprentice : Int) then .ok (false, r)
  else
    let apps := updateNth r.apprentices i (fun a => { a with prediction := some p })
    let r1 := { r with apprentices := apps }
    if r1.apprentices.all (fun a => a.prediction.isSome) then
      .ok (true, start_first_trick { r1 with phase := .playing })
    else .ok (true, r1)

/-- `Round.play_card(apprentice, card_index)`, in source order:
`ValueError` outside the playing phase; `IndexError` when the current
apprentice index is out of roster range (Python evaluates
`self.apprentices[self.current_apprentice_index]` in the turn check);
`ValueError` when it is not the acting apprentice or there is no active
trick; `False` without mutation when the chosen position is not among the
legal positions; otherwise the card moves from hand to trick, the turn
advances, and a full trick is completed, recorded, the winner credited
with `win_trick`, and either the phase moves to scoring or the winner
leads a new trick. -/
def play_card (r : Round) (i : Player) (card_index : Nat) : Except Err (Bool × Round) :=
  if r.phase ≠ .playing then .error .wrongPhase
  else
    match r.apprentices.get? r.current_apprentice_index with
    | none => .error .indexOutOfRange
    | some current =>
      if i ≠ r.current_apprentice_index then .error .notYourTurn
      else
        match r.current_trick with
        | none => .error .noActiveTrick
        | some trick =>
          if card_index ∉ current.get_playable_cards trick.leading_color then
            .ok (false, r)
          else
            match current.play_card card_index with
            | .error e => .error e
            | .ok (card, current1) =>
              match trick.play_card i card with
              | .error e => .error e
              | .ok trick1 =>
                let apps1 := updateNth r.apprentices i (fun _ => current1)
                let nextIdx := (r.current_apprentice_index + 1) % r.apprentices.length
                let r1 := { r with apprentices := apps1,
                                   current_apprentice_index := nextIdx,
                                   current_trick := some trick1 }
                if trick1.cards_played.length = r1.apprentices.length then
                  let done := trick1.complete_trick
                  let apps2 :=
                    match done.2 with
                    | some w => updateNth apps1 w (fun a => a.win_trick)
                    | none => apps1
                  let r2 := { r1 with apprentices := apps2,
                                      current_trick := some done.1,
                                      tricks_played := r1.tricks_played ++ [done.1] }
                  if r2.tricks_played.length = r2.cards_per_apprentice then
                    .ok (true, { r2 with phase := .scoring })
                  else
                    match done.2 with
                    | some w => .ok (true, r2.start_next_trick w)
                    | none => .error .noWinner
                else .ok (true, r1)

end Round

/-- A complete four-player trick with no Wizard, two Fools and two regular
cards of different non-trump colors: no candidate ranks higher than every
other candidate.  Its play prefix is replayable by `applyPlays`. -/
def trickNoMax : Trick :=
  { leading_apprentice := 0, trump_color := some Color.elves,
    cards_played := [(0, Card.fool), (1, Card.fool),
                     (2, Card.regular Color.dwarves 5),
                     (3, Card.regular Color.humans 7)],
    leading_color := none, winner := none, is_complete := true }

/-- A two-player all-Fool trick, as recorded just before completion. -/
def allFoolTrick : Trick :=
  { leading_apprentice := 0, trump_color := none,
    cards_played := [(0, Card.fool), (1, Card.fool)],
    leading_color := none, winner := none, is_complete := false }

/-- Playing-phase round in which the current trick was led with a Wizard
and the second card set the leading color to elves; apprentice 2 (to act)
holds an elves card and a dwarves card. -/
def wizardLedTrick : Trick :=
  { leading_apprentice := 0, trump_color := none,
    cards_played := [(0, Card.wizard), (1, Card.regular Color.elves 10)],
    leading_color := some Color.elves, winner := none, is_complete := false }

/-- The acting apprentice of `wizardLedRound`. -/
def apprenticeTwo : Apprentice :=
  { hand := [Card.regular Color.elves 3, Card.regular Color.dwarves 9],
    prediction := some 1, tricks_won := 0 }

/-- See `wizardLedTrick`. -/
def wizardLedRound : Round :=
  { round_number := 2,
    apprentices := [ { hand := [Card.regular Color.humans 1], prediction := some 0, tricks_won := 0 },
                     { hand := [Card.regular Color.giants 2], prediction := some 0, tricks_won := 0 },
                     apprenticeTwo ],
    dealer_index := 2, cards_per_apprentice := 2, trump_color := none,
    current_trick := some wizardLedTrick, tricks_played := [],
    current_apprentice_index := 2, phase := .playing }

/-- Playing-phase round used for the out-of-range hand index claim:
apprentice 0 is to act on a fresh trick and holds one card. -/
def shortHandRound : Round :=
  { round_number := 1,
    apprentices := [ { hand := [Card.regular Color.humans 4], prediction := some 0, tricks_won := 0 },
                     { hand := [Card.regular Color.giants 8], prediction := some 1, tricks_won := 0 } ],
    dealer_index := 1, cards_per_apprentice := 1, trump_color := none,
    current_trick := some (Trick.init 0 none), tricks_played := [],
    current_apprentice_index := 0, phase := .playing }

/-- Predicting-phase round in which apprentice 0 already has a recorded
prediction and apprentice 1 does not. -/
def repeatPredictionRound : Round :=
  { round_number := 3,
    apprentices := [ { hand := [], prediction := some 1, tricks_won := 0 },
                     { hand := [], prediction := none, tricks_won := 0 } ],
    dealer_index := 0, cards_per_apprentice := 3, trump_color := none,
    current_trick := none, tricks_played := [],
    current_apprentice_index := 1, phase := .predicting }

/-- A complete trick with a unique maximal candidate: a Fool led, the
second card set the leading color to elves, and the elves 10 beats the
other candidates. -/
def maxTrick : Trick :=
  { leading_apprentice := 0, trump_color := none,
    cards_played := [(0, Card.fool), (1, Card.regular Color.elves 10),
                     (2, Card.regular Color.elves 4),
                     (3, Card.regular Color.dwarves 9)],
    leading_color := some Color.elves, winner := none, is_complete := true }

/-- A complete trick whose first Wizard was played second. -/
def foolWizardTrick : Trick :=
  { leading_apprentice := 0, trump_color := none,
    cards_played := [(0, Card.regular Color.dwarves 13), (1, Card.wizard),
                     (2, Card.wizard)],
    leading_color := some Color.dwarves, winner := none, is_complete := true }

/-- A hand with a led-color card, a colorless card and an off-color card. -/
def apprenticeMixedHand : Apprentice :=
  { hand := [Card.regular Color.elves 3, Card.wizard, Card.regular Color.dwarves 9],
    prediction := none, tricks_won := 0 }

/-! ## Theorems -/

/-- Asymmetry of `is_higher_than` on pairs that are not two Wizards: if `c`
ranks higher than `d` then `d` does not rank higher than `c`. -/
theorem is_higher_than_asymm (c d : Card) (trump led : Option Color)
    (hc : c.isWizard = false ∨ d.isWizard = false)
    (h : c.is_higher_than d trump led = true) :
    d.is_higher_than c trump led = false := by
  cases c with
  | wizard =>
      cases d with
      | wizard => simp [Card.isWizard] at hc
      | regular dc dv => simp [Card.is_higher_than]
      | fool => simp [Card.is_higher_than]
  | fool =>
      cases d <;> simp [Card.is_higher_than] at h
  | regular cc cv =>
      cases d with
      | wizard => simp [Card.is_higher_than] at h
      | fool => simp [Card.is_higher_than]
      | regular dc dv =>
          simp only [Card.is_higher_than] at h ⊢
          by_cases hT1 : some cc = trump <;> by_cases hT2 : some dc = trump <;>
            by_cases hE : cc = dc <;>
            by_cases hL1 : (some cc : Option Color) = led <;>
            by_cases hL2 : (some dc : Option Color) = led <;>
            simp_all <;> try omega
          all_goals exact fun hh => absurd hh.symm hE

/-- C5 (amended): `is_higher_than` is asymmetric and irreflexive except
between two Wizards — for all cards and contexts, both directions hold at
once exactly when both cards are Wizards (so for any pair that is not two
Wizards the ordering is strict, and `ranks_higher(c, c)` is false exactly
for non-Wizard `c`). -/
theorem is_higher_than_mutual_iff_both_wizard (a b : Card) (trump led : Option Color) :
    (a.is_higher_than b trump led = true ∧ b.is_higher_than a trump led = true)
      ↔ (a.isWizard = true ∧ b.isWizard = true) := by
  constructor
  · rintro ⟨h1, h2⟩
    by_contra hnb
    have hc : a.isWizard = false ∨ b.isWizard = false := by
      cases ha : a.isWizard <;> cases hb : b.isWizard <;> simp_all
    have h3 := is_higher_than_asymm a b trump led hc h1
    rw [h3] at h2
    exact Bool.false_ne_true h2
  · rintro ⟨ha, hb⟩
    cases a <;> cases b <;> simp_all [Card.isWizard, Card.is_higher_than]

/-- C5 counterexample: a Wizard ranks higher than itself (and hence both
directions of the comparison hold for a pair of Wizards), refuting the
claimed non-reflexivity for SpecialHigh cards. -/
theorem is_higher_than_wizard_reflexive :
    Card.is_higher_than Card.wizard Card.wizard none none = true := rfl

/-- C7: on the all-Fool trick the resolution (`complete_trick`, which
calls `determine_winner`) returns the first player but leaves the trick's
`winner` attribute unset — the only resolution branch that skips the
assignment, contradicting "winner is set on resolution in every case". -/
theorem all_fool_trick_winner_attribute_unset :
    (Trick.init 0 none).applyPlays [(0, Card.fool), (1, Card.fool)]
        = Except.ok allFoolTrick ∧
    allFoolTrick.complete_trick.2 = some 0 ∧
    allFoolTrick.complete_trick.1.winner = none := ⟨rfl, rfl, rfl⟩

/-- C4: with the current trick led by a Wizard and the leading color set to
elves by the second card, the orchestrator `Round.play_card` rejects the
acting apprentice's off-color regular card (position 1) as an ordinary
`False`, even though the trick's own `is_valid_play` (the documented
"first card was a Wizard ⇒ anything goes" rule, never consulted by the
orchestrator) accepts exactly that card. -/
theorem wizard_led_follow_suit_enforced :
    wizardLedRound.play_card 2 1 = Except.ok (false, wizardLedRound) ∧
    (wizardLedTrick.cards_played.head?.map (fun pc => pc.2.isWizard)) = some true ∧
    wizardLedTrick.is_valid_play apprenticeTwo (Card.regular Color.dwarves 9) = true := by
  refine ⟨by decide, rfl, by decide⟩

/-- C6 counterexample: in the playing phase, on the acting apprentice's
turn, an out-of-range hand index (7 against a one-card hand) makes
`Round.play_card` return the ordinary boolean rejection `False` with the
state unchanged — not a distinct fatal error. -/
theorem play_card_out_of_range_returns_false :
    shortHandRound.play_card 0 7 = Except.ok (false, shortHandRound) := by decide

/-- C8 counterexample: in a reachable predicting-phase state where
apprentice 0 already holds the recorded prediction 1, a repeated in-range
prediction 2 by the same apprentice is accepted (`True`) and replaces the
recorded value. -/
theorem make_prediction_repeat_accepted :
    (repeatPredictionRound.make_prediction 0 2).map
        (fun br => (br.1, br.2.apprentices.map (fun a => a.prediction)))
      = Except.ok (true, [some 2, none]) := by decide

/-- C1 counterexample: a complete trick with no Wizard and at least one
non-Fool card for which no non-Fool card ranks higher than every other
non-Fool card (two Fools led, leaving the leading color undefined, then
two regular cards of different non-trump colors): the card described by
the claim does not exist.  The play list is replayable by `play_card`. -/
theorem no_unique_max_candidate_case :
    ((Trick.init 0 (some Color.elves)).applyPlays trickNoMax.cards_played
        = Except.ok { trickNoMax with is_complete := false }) ∧
    ¬ ∃ i : Fin trickNoMax.cards_played.length,
        (trickNoMax.cards_played.get i).2.isFool = false ∧
        ∀ j : Fin trickNoMax.cards_played.length, j ≠ i →
          (trickNoMax.cards_played.get j).2.isFool = false →
          (trickNoMax.cards_played.get i).2.is_higher_than
            (trickNoMax.cards_played.get j).2
            trickNoMax.trump_color trickNoMax.leading_color = true := by
  exact ⟨by decide, by decide⟩

/-- C10: with a recorded prediction `p` the round point delta is
`20 + 10 * tricks_won` when `p = tricks_won` and `-10 * |p - tricks_won|`
otherwise; without a prediction the computation fails with the distinct
no-prediction error. -/
theorem calculate_round_points_spec (a : Apprentice) :
    (∀ p : Int, a.prediction = some p →
      a.calculate_round_points =
        Except.ok (if p = (a.tricks_won : Int) then 20 + 10 * (a.tricks_won : Int)
                   else -10 * |p - (a.tricks_won : Int)|)) ∧
    (a.prediction = none → a.calculate_round_points = Except.error Err.noPrediction) := by
  constructor
  · intro p hp
    simp only [Apprentice.calculate_round_points, hp]
    split
    · rfl
    · congr 1
      rw [Int.abs_eq_natAbs]
  · intro hp
    simp [Apprentice.calculate_round_points, hp]

/-- Witness for C10: prediction 3 with 3 tricks won yields +50. -/
theorem calculate_round_points_spec_witness :
    Apprentice.calculate_round_points
      { hand := [], prediction := some 3, tricks_won := 3 } = Except.ok 50 := by
  have h := (calculate_round_points_spec
      { hand := [], prediction := some 3, tricks_won := 3 }).1 3 rfl
  norm_num at h
  exact h

/-- Membership in the enumeration loop of `get_playable_cards`: position
`m` (counting from `k`) is produced exactly for cards matching the led
color or colorless cards. -/
theorem playableAux_mem (c : Color) :
    ∀ (l : List Card) (k m : Nat),
      m ∈ playableAux c l k ↔
        ∃ j card, l.get? j = some card ∧ m = k + j ∧
          (card.color = some c ∨ card.color = none) := by
  intro l
  induction l with
  | nil => intro k m; simp [playableAux]
  | cons card rest ih =>
      intro k m
      by_cases hc : (card.color == some c || card.color == none) = true
      · have hc2 : card.color = some c ∨ card.color = none := by simpa using hc
        simp only [playableAux]
        rw [if_pos hc, List.mem_cons, ih (k + 1) m]
        constructor
        · rintro (rfl | ⟨j, cd, hj, hm, hcol⟩)
          · exact ⟨0, card, rfl, by omega, hc2⟩
          · exact ⟨j + 1, cd, by simpa using hj, by omega, hcol⟩
        · rintro ⟨j, cd, hj, hm, hcol⟩
          cases j with
          | zero =>
              left
              omega
          | succ j =>
              right
              exact ⟨j, cd, by simpa using hj, by omega, hcol⟩
      · have hc2 : ¬ (card.color = some c ∨ card.color = none) := by simpa using hc
        simp only [playableAux]
        rw [if_neg hc, ih (k + 1) m]
        constructor
        · rintro ⟨j, cd, hj, hm, hcol⟩
          exact ⟨j + 1, cd, by simpa using hj, by omega, hcol⟩
        · rintro ⟨j, cd, hj, hm, hcol⟩
          cases j with
          | zero =>
              exfalso
              have : card = cd := by simpa using hj
              exact hc2 (this ▸ hcol)
          | succ j =>
              exact ⟨j, cd, by simpa using hj, by omega, hcol⟩

/-- `can_follow_color` holds exactly when the hand has a card of `c`. -/
theorem can_follow_color_iff (a : Apprentice) (c : Color) :
    a.can_follow_color c = true ↔ ∃ card ∈ a.hand, card.color = some c := by
  simp [Apprentice.can_follow_color]

/-- C9: `get_playable_cards` returns every position when no color was led
or the hand holds no card of the led color; otherwise exactly the
positions of led-color or colorless cards; it is non-empty on a non-empty
hand and empty on an empty hand. -/
theorem get_playable_cards_spec (a : Apprentice) (led : Option Color) :
    (led = none → a.get_playable_cards led = List.range a.hand.length) ∧
    (∀ c, led = some c → (∀ card ∈ a.hand, card.color ≠ some c) →
      a.get_playable_cards led = List.range a.hand.length) ∧
    (∀ c, led = some c → (∃ card ∈ a.hand, card.color = some c) →
      ∀ m, m ∈ a.get_playable_cards led ↔
        ∃ card, a.hand.get? m = some card ∧
          (card.color = some c ∨ card.color = none)) ∧
    (a.hand ≠ [] → a.get_playable_cards led ≠ []) ∧
    (a.hand = [] → a.get_playable_cards led = []) := by
  refine ⟨?_, ?_, ?_, ?_, ?_⟩
  · rintro rfl; rfl
  · rintro c rfl hno
    have hcf : ¬ a.can_follow_color c = true := by
      rw [can_follow_color_iff]
      rintro ⟨card, hmem, hcol⟩
      exact hno card hmem hcol
    simp [Apprentice.get_playable_cards, hcf]
  · rintro c rfl hyes m
    have hcf : a.can_follow_color c = true := (can_follow_color_iff a c).2 hyes
    simp only [Apprentice.get_playable_cards]
    rw [if_neg (by simp [hcf]), playableAux_mem c a.hand 0 m]
    constructor
    · rintro ⟨j, card, hj, hm, hcol⟩
      have hjm : j = m := by omega
      subst hjm
      exact ⟨card, hj, hcol⟩
    · rintro ⟨card, hm, hcol⟩
      exact ⟨m, card, hm, by omega, hcol⟩
  · intro hne
    have hlen : 0 < a.hand.length := List.length_pos.2 hne
    cases led with
    | none =>
        simp only [Apprentice.get_playable_cards]
        simp only [ne_eq, List.range_eq_nil, List.length_eq_zero]
        exact hne
    | some c =>
        by_cases hcf : a.can_follow_color c = true
        · obtain ⟨card, hmem, hcol⟩ := (can_follow_color_iff a c).1 hcf
          obtain ⟨j, hj⟩ := List.mem_iff_get?.1 hmem
          have hmemp : j ∈ playableAux c a.hand 0 :=
            (playableAux_mem c a.hand 0 j).2 ⟨j, card, hj, by omega, Or.inl hcol⟩
          simp only [Apprentice.get_playable_cards]
          rw [if_neg (by simp [hcf])]
          exact List.ne_nil_of_mem hmemp
        · simp only [Apprentice.get_playable_cards]
          rw [if_pos (by simpa using hcf)]
          simp only [ne_eq, List.range_eq_nil, List.length_eq_zero]
          exact hne
  · intro hnil
    cases led with
    | none => simp [Apprentice.get_playable_cards, hnil]
    | some c => simp [Apprentice.get_playable_cards, Apprentice.can_follow_color, hnil, playableAux]

/-- Witness for C9: with dwarves led, the mixed hand may play its dwarves
card (position 2), and its playable set is non-empty. -/
theorem get_playable_cards_spec_witness :
    (2 ∈ apprenticeMixedHand.get_playable_cards (some Color.dwarves)) ∧
    apprenticeMixedHand.get_playable_cards (some Color.dwarves) ≠ [] := by
  constructor
  · exact ((get_playable_cards_spec apprenticeMixedHand (some Color.dwarves)).2.2.1
      Color.dwarves rfl ⟨Card.regular Color.dwarves 9, by decide, rfl⟩ 2).2
      ⟨Card.regular Color.dwarves 9, rfl, Or.inl rfl⟩
  · exact (get_playable_cards_spec apprenticeMixedHand (some Color.dwarves)).2.2.2.1
      (by decide)

/-- Every position returned by `get_playable_cards` is inside the hand. -/
theorem get_playable_cards_lt (a : Apprentice) (led : Option Color) (m : Nat)
    (hm : m ∈ a.get_playable_cards led) : m < a.hand.length := by
  cases led with
  | none => simpa [Apprentice.get_playable_cards, List.mem_range] using hm
  | some c =>
      simp only [Apprentice.get_playable_cards] at hm
      split at hm
      · simpa [List.mem_range] using hm
      · obtain ⟨j, card, hj, hmk, _⟩ := (playableAux_mem c a.hand 0 m).1 hm
        obtain ⟨hlt, _⟩ := List.get?_eq_some.1 hj
        omega

/-- C6 (amended): an out-of-range hand index in the playing phase, on the
acting apprentice's turn, is rejected by `Round.play_card` as the ordinary
boolean `False` with the round unchanged — the legal-position membership
check subsumes the bounds check, so the distinct `IndexError` of
`Apprentice.play_card` is never reached through the orchestrator. -/
theorem play_card_out_of_range_rejected (r : Round) (i : Player) (idx : Nat)
    (app : Apprentice) (t : Trick)
    (hphase : r.phase = RoundPhase.playing)
    (happ : r.apprentices[r.current_apprentice_index]? = some app)
    (hturn : i = r.current_apprentice_index)
    (htrick : r.current_trick = some t)
    (hidx : app.hand.length ≤ idx) :
    r.play_card i idx = Except.ok (false, r) := by
  have hnot : idx ∉ app.get_playable_cards t.leading_color := fun hmem =>
    absurd (get_playable_cards_lt app t.leading_color idx hmem) (by omega)
  subst hturn
  simp [Round.play_card, hphase, happ, htrick, hnot]

/-- Witness for C6 (amended): index 9 against a one-card hand. -/
theorem play_card_out_of_range_rejected_witness :
    shortHandRound.play_card 0 9 = Except.ok (false, shortHandRound) :=
  play_card_out_of_range_rejected shortHandRound 0 9
    { hand := [Card.regular Color.humans 4], prediction := some 0, tricks_won := 0 }
    (Trick.init 0 none) rfl rfl rfl rfl (by decide)

/-- Reading back the position just replaced by `updateNth`. -/
theorem updateNth_get?_same {α : Type} :
    ∀ (l : List α) (n : Nat) (f : α → α),
      (updateNth l n f)[n]? = (l[n]?).map f := by
  intro l
  induction l with
  | nil => intro n f; cases n <;> simp [updateNth]
  | cons a rest ih =>
      intro n f
      cases n with
      | zero => simp [updateNth]
      | succ n => simp [updateNth, ih]

/-- C8 (amended): in the predicting phase any in-range prediction from a
roster apprentice is accepted with `True` and recorded, replacing whatever
prediction that apprentice already had — `Round.make_prediction` never
checks for an existing prediction. -/
theorem make_prediction_overwrites (r : Round) (i : Player) (p : Int)
    (hphase : r.phase = RoundPhase.predicting)
    (h0 : 0 ≤ p) (h1 : p ≤ (r.cards_per_apprentice : Int))
    (hi : i < r.apprentices.length) :
    ∃ r', r.make_prediction i p = Except.ok (true, r') ∧
      (r'.apprentices[i]?).map (fun a => a.prediction) = some (some p) := by
  have ha0 : r.apprentices[i]? = some (r.apprentices.get ⟨i, hi⟩) := by
    rw [List.getElem?_eq_getElem hi]
    rfl
  have hupd : (updateNth r.apprentices i
        (fun a => { a with prediction := some p }))[i]?
      = some { r.apprentices.get ⟨i, hi⟩ with prediction := some p } := by
    rw [updateNth_get?_same, ha0]
    rfl
  simp only [Round.make_prediction]
  rw [if_neg (by simp [hphase]), if_neg (by omega)]
  split
  · refine ⟨_, rfl, ?_⟩
    simp only [Round.start_first_trick, hupd]
    rfl
  · refine ⟨_, rfl, ?_⟩
    simp only [hupd]
    rfl

/-- Witness for C8 (amended): apprentice 0, who already predicted 1,
successfully re-predicts 2. -/
theorem make_prediction_overwrites_witness :
    ∃ r', repeatPredictionRound.make_prediction 0 2 = Except.ok (true, r') ∧
      (r'.apprentices[0]?).map (fun a => a.prediction) = some (some 2) :=
  make_prediction_overwrites repeatPredictionRound 0 2 rfl (by decide) (by decide)
    (by decide)

/-- One successful `Trick.play_card` preserves the invariant that the
leading color equals the spec policy applied to the recorded plays, and
appends the play. -/
theorem play_card_leading (t : Trick) (p : Player) (c : Card) (t1 : Trick)
    (hinv : t.leading_color = leadOfFirstTwo t.cards_played)
    (hok : t.play_card p c = Except.ok t1) :
    t1.leading_color = leadOfFirstTwo t1.cards_played ∧
    t1.cards_played = t.cards_played ++ [(p, c)] := by
  simp only [Trick.play_card] at hok
  split at hok
  · exact absurd hok (by simp)
  · split at hok
    · exact absurd hok (by simp)
    · obtain rfl := Except.ok.inj hok
      refine ⟨?_, rfl⟩
      rcases hcp : t.cards_played with _ | ⟨⟨py, cy⟩, _ | ⟨⟨pz, cz⟩, rest3⟩⟩
      · have hinv2 : t.leading_color = none := by
          simpa [hcp, leadOfFirstTwo] using hinv
        cases c <;> simp [hcp, hinv2, leadOfFirstTwo, Card.isRegular, Card.color]
      · cases cy with
        | regular ycol yv =>
            have hinv2 : t.leading_color = some ycol := by
              simpa [hcp, leadOfFirstTwo] using hinv
            cases c <;> simp [hcp, hinv2, leadOfFirstTwo, Card.isRegular, Card.color]
        | wizard =>
            have hinv2 : t.leading_color = none := by
              simpa [hcp, leadOfFirstTwo] using hinv
            cases c <;> simp [hcp, hinv2, leadOfFirstTwo, Card.isRegular, Card.color]
        | fool =>
            have hinv2 : t.leading_color = none := by
              simpa [hcp, leadOfFirstTwo] using hinv
            cases c <;> simp [hcp, hinv2, leadOfFirstTwo, Card.isRegular, Card.color]
      · cases cy with
        | regular ycol yv =>
            have hinv2 : t.leading_color = some ycol := by
              simpa [hcp, leadOfFirstTwo] using hinv
            simp [hcp, hinv2, leadOfFirstTwo]
        | wizard =>
            cases cz <;>
              · have hinv2 := hinv
                rw [hcp] at hinv2
                simp only [leadOfFirstTwo] at hinv2
                simp [hcp, hinv2, leadOfFirstTwo]
        | fool =>
            cases cz <;>
              · have hinv2 := hinv
                rw [hcp] at hinv2
                simp only [leadOfFirstTwo] at hinv2
                simp [hcp, hinv2, leadOfFirstTwo]

/-- Replaying plays from any invariant-satisfying trick keeps the
invariant and appends the plays in order. -/
theorem applyPlays_spec :
    ∀ (plays : List (Player × Card)) (t t1 : Trick),
      t.leading_color = leadOfFirstTwo t.cards_played →
      t.applyPlays plays = Except.ok t1 →
      t1.leading_color = leadOfFirstTwo t1.cards_played ∧
      t1.cards_played = t.cards_played ++ plays := by
  intro plays
  induction plays with
  | nil =>
      intro t t1 hinv hok
      simp only [Trick.applyPlays] at hok
      obtain rfl := Except.ok.inj hok
      simp [hinv]
  | cons x rest ih =>
      intro t t1 hinv hok
      rcases x with ⟨p, c⟩
      cases h1 : t.play_card p c with
      | error e => simp [Trick.applyPlays, h1] at hok
      | ok t2 =>
          simp only [Trick.applyPlays, h1] at hok
          obtain ⟨ha, hb⟩ := play_card_leading t p c t2 hinv h1
          obtain ⟨hc2, hd⟩ := ih t2 t1 ha hok
          refine ⟨hc2, ?_⟩
          rw [hd, hb]
          simp

/-- C2: for every sequence of plays successfully recorded through
`play_card` on a fresh trick, the resulting leading color is the first
card's color exactly when the first card is Regular, else the second
card's color exactly when the second card is Regular, else undefined —
no later card ever sets it. -/
theorem play_sequence_leading_color (la : Player) (trump : Option Color)
    (plays : List (Player × Card)) (t1 : Trick)
    (h : (Trick.init la trump).applyPlays plays = Except.ok t1) :
    t1.leading_color = leadOfFirstTwo plays := by
  obtain ⟨h1, h2⟩ := applyPlays_spec plays (Trick.init la trump) t1 rfl h
  rw [h1, h2]
  rfl

/-- Witness for C2: a Fool then a green (elves) 10 leads green. -/
theorem play_sequence_leading_color_witness :
    ∃ t1, (Trick.init 0 none).applyPlays
        [(0, Card.fool), (1, Card.regular Color.elves 10)] = Except.ok t1 ∧
      t1.leading_color = some Color.elves := by
  refine ⟨_, rfl, ?_⟩
  have h := play_sequence_leading_color 0 none
      [(0, Card.fool), (1, Card.regular Color.elves 10)] _ rfl
  simpa using h

/-- `find?` returns the element at the first position satisfying `p`. -/
theorem find?_of_first {α : Type} (p : α → Bool) :
    ∀ (l : List α) (i : Fin l.length),
      p (l.get i) = true →
      (∀ j : Fin l.length, j < i → p (l.get j) = false) →
      l.find? p = some (l.get i) := by
  intro l
  induction l with
  | nil => intro i _ _; exact absurd i.isLt (by simp)
  | cons a rest ih =>
      intro i hi hmin
      cases i using Fin.cases with
      | zero =>
          rw [List.find?_cons_of_pos _ (by simpa using hi)]
          rfl
      | succ k =>
          have ha : p a = false := by
            have := hmin ⟨0, by simp⟩ (by simp [Fin.lt_def])
            simpa using this
          rw [List.find?_cons_of_neg _ (by simp [ha])]
          have hmin2 : ∀ j : Fin rest.length, j < k → p (rest.get j) = false := by
            intro j hj
            have := hmin j.succ (Fin.succ_lt_succ_iff.2 hj)
            simpa using this
          have hres := ih k (by simpa using hi) hmin2
          simpa using hres

/-- `determine_winner` in the all-Fool case: the first player, read off the
returned component (the `winner` attribute is not assigned there). -/
theorem determine_winner_2_all_fools (t : Trick)
    (hall : t.cards_played.all (fun pc => pc.2.isFool) = true) :
    t.determine_winner.2 = t.cards_played.head?.map Prod.fst := by
  unfold Trick.determine_winner
  split
  · rename_i heq
    rw [heq]
    rfl
  · rename_i first rest heq
    rw [if_pos hall]
    simp [heq]

/-- `determine_winner` when a Wizard is present: the result of the
first-Wizard search. -/
theorem determine_winner_2_of_wizard (t : Trick) (x : Player × Card)
    (hnall : t.cards_played.all (fun pc => pc.2.isFool) = false)
    (hfind : t.cards_played.find? (fun pc => pc.2.isWizard) = some x) :
    t.determine_winner.2 = some x.1 := by
  rcases x with ⟨xp, xc⟩
  unfold Trick.determine_winner
  split
  · rename_i heq
    rw [heq] at hfind
    simp at hfind
  · rename_i first rest heq
    rw [if_neg (by simp [hnall]), hfind]

/-- `determine_winner` with a mixed, Wizard-free trick: the result of the
running-best fold over the plays. -/
theorem determine_winner_2_no_wizard (t : Trick)
    (hnall : t.cards_played.all (fun pc => pc.2.isFool) = false)
    (hfind : t.cards_played.find? (fun pc => pc.2.isWizard) = none) :
    t.determine_winner.2 =
      (findHighest t.trump_color t.leading_color t.cards_played none).map Prod.fst := by
  unfold Trick.determine_winner
  split
  · rename_i heq
    rw [heq] at hnall
    simp at hnall
  · rename_i first rest heq
    rw [if_neg (by simp [hnall]), hfind]
    cases hfh : findHighest t.trump_color t.leading_color t.cards_played none with
    | none => simp [hfh]
    | some pc =>
        rcases pc with ⟨p, c⟩
        simp [hfh]

/-- C3: if every card played is a Fool, `determine_winner` returns the
first player in play order; otherwise, if a Wizard occurs at position `i`
with no earlier Wizard, the player at `i` wins — independently of every
other card, the trump color and the leading color (both arbitrary in
`t`). -/
theorem determine_winner_all_fools_or_first_wizard (t : Trick) :
    (t.cards_played.all (fun pc => pc.2.isFool) = true →
      t.determine_winner.2 = t.cards_played.head?.map Prod.fst) ∧
    (∀ i : Fin t.cards_played.length,
      (t.cards_played.get i).2.isWizard = true →
      (∀ j : Fin t.cards_played.length, j < i →
        (t.cards_played.get j).2.isWizard = false) →
      t.determine_winner.2 = some (t.cards_played.get i).1) := by
  constructor
  · exact determine_winner_2_all_fools t
  · intro i hwi hmin
    have hxmem : t.cards_played.get i ∈ t.cards_played := List.getElem_mem i.isLt
    have hnall : t.cards_played.all (fun pc => pc.2.isFool) = false := by
      cases hA : t.cards_played.all (fun pc => pc.2.isFool) with
      | false => rfl
      | true =>
          have hf := List.all_eq_true.1 hA _ hxmem
          cases hx : (t.cards_played.get i).2 <;>
            simp_all [Card.isWizard, Card.isFool]
    have hfind := find?_of_first (fun pc => pc.2.isWizard) t.cards_played i hwi hmin
    exact determine_winner_2_of_wizard t _ hnall hfind

/-- Witness for C3: an all-Fool trick resolves to its first player, and a
trick `[regular red 13, Wizard, Wizard]` resolves to the holder of the
first Wizard (player 1). -/
theorem determine_winner_all_fools_or_first_wizard_witness :
    allFoolTrick.determine_winner.2 = some 0 ∧
    foolWizardTrick.determine_winner.2 = some 1 := by
  constructor
  · have h := (determine_winner_all_fools_or_first_wizard allFoolTrick).1 (by decide)
    simpa using h
  · have h := (determine_winner_all_fools_or_first_wizard foolWizardTrick).2
      ⟨1, by decide⟩ (by decide) (by decide)
    simpa using h

/-- The running best stays `m` when nothing later beats it. -/
theorem findHighest_keep (trump led : Option Color) :
    ∀ (l : List (Player × Card)) (m : Player × Card),
      (∀ pc ∈ l, pc.2.isFool = false → pc.2.is_higher_than m.2 trump led = false) →
      findHighest trump led l (some m) = some m := by
  intro l
  induction l with
  | nil => intro m _; rfl
  | cons x rest ih =>
      intro m h
      rcases x with ⟨p, c⟩
      rcases m with ⟨mp, mc⟩
      simp only [findHighest]
      by_cases hf : c.isFool = true
      · rw [if_pos hf]
        exact ih (mp, mc) (fun pc hpc => h pc (List.mem_cons_of_mem _ hpc))
      · have hf2 : c.isFool = false := by simpa using hf
        have hch : c.is_higher_than mc trump led = false :=
          h (p, c) (List.mem_cons_self _ _) hf2
        rw [if_neg hf, if_neg (by simp [hch])]
        exact ih (mp, mc) (fun pc hpc => h pc (List.mem_cons_of_mem _ hpc))

/-- The fold reaches `m` and keeps it when `m` beats everything before it
(so the running best never blocks it) and nothing after it beats `m`. -/
theorem findHighest_reach (trump led : Option Color) (m : Player × Card)
    (hmf : m.2.isFool = false) :
    ∀ (l1 l2 : List (Player × Card)),
      (∀ pc ∈ l1, pc.2.isFool = false →
        m.2.is_higher_than pc.2 trump led = true) →
      (∀ pc ∈ l2, pc.2.isFool = false →
        pc.2.is_higher_than m.2 trump led = false) →
      ∀ best : Option (Player × Card),
        (∀ b, best = some b → m.2.is_higher_than b.2 trump led = true) →
        findHighest trump led (l1 ++ m :: l2) best = some m := by
  intro l1
  induction l1 with
  | nil =>
      intro l2 h1 h2 best hbest
      rcases m with ⟨mp, mc⟩
      have hmf2 : mc.isFool = false := by simpa using hmf
      cases best with
      | none =>
          simp only [List.nil_append, findHighest]
          rw [if_neg (by simp [hmf2])]
          exact findHighest_keep trump led l2 (mp, mc) h2
      | some b =>
          rcases b with ⟨bp, bc⟩
          have hb := hbest (bp, bc) rfl
          simp only [List.nil_append, findHighest]
          rw [if_neg (by simp [hmf2]), if_pos hb]
          exact findHighest_keep trump led l2 (mp, mc) h2
  | cons x l1 ih =>
      intro l2 h1 h2 best hbest
      rcases x with ⟨xp, xc⟩
      have h1tail : ∀ pc ∈ l1, pc.2.isFool = false →
          m.2.is_higher_than pc.2 trump led = true :=
        fun pc hpc hf => h1 pc (List.mem_cons_of_mem _ hpc) hf
      cases best with
      | none =>
          simp only [List.cons_append, findHighest]
          by_cases hxf : xc.isFool = true
          · rw [if_pos hxf]
            exact ih l2 h1tail h2 none (fun b hb => Option.noConfusion hb)
          · have hxf2 : xc.isFool = false := by simpa using hxf
            rw [if_neg hxf]
            exact ih l2 h1tail h2 (some (xp, xc))
              (fun b hb => by
                cases hb
                exact h1 (xp, xc) (List.mem_cons_self _ _) hxf2)
      | some b =>
          rcases b with ⟨bp, bc⟩
          simp only [List.cons_append, findHighest]
          by_cases hxf : xc.isFool = true
          · rw [if_pos hxf]
            exact ih l2 h1tail h2 (some (bp, bc)) (fun b hb => by
              cases hb
              exact hbest _ rfl)
          · have hxf2 : xc.isFool = false := by simpa using hxf
            rw [if_neg hxf]
            by_cases hcmp : xc.is_higher_than bc trump led = true
            · rw [if_pos hcmp]
              exact ih l2 h1tail h2 (some (xp, xc))
                (fun b hb => by
                  cases hb
                  exact h1 (xp, xc) (List.mem_cons_self _ _) hxf2)
            · rw [if_neg hcmp]
              exact ih l2 h1tail h2 (some (bp, bc)) (fun b hb => by
                cases hb
                exact hbest _ rfl)

/-- Any member of `l.take n` sits at an index below `n`. -/
theorem mem_take_get {α : Type} (l : List α) (n : Nat) (pc : α)
    (h : pc ∈ l.take n) :
    ∃ j : Fin l.length, j.1 < n ∧ l.get j = pc := by
  obtain ⟨j, hj⟩ := List.mem_iff_getElem?.1 h
  have hjlt : j < (l.take n).length := (List.getElem?_eq_some.1 hj).1
  have hjn : j < n := by
    simp [List.length_take] at hjlt
    omega
  have hjl : j < l.length := by
    simp [List.length_take] at hjlt
    omega
  refine ⟨⟨j, hjl⟩, hjn, ?_⟩
  have heq : (l.take n)[j]? = l[j]? := by
    rw [List.getElem?_take]
    exact if_pos hjn
  rw [heq, List.getElem?_eq_getElem hjl] at hj
  exact Option.some.inj hj

/-- Any member of `l.drop n` sits at an index at least `n`. -/
theorem mem_drop_get {α : Type} (l : List α) (n : Nat) (pc : α)
    (h : pc ∈ l.drop n) :
    ∃ j : Fin l.length, n ≤ j.1 ∧ l.get j = pc := by
  obtain ⟨j, hj⟩ := List.mem_iff_getElem?.1 h
  rw [List.getElem?_drop] at hj
  have hjl : n + j < l.length := (List.getElem?_eq_some.1 hj).1
  refine ⟨⟨n + j, hjl⟩, Nat.le_add_right n j, ?_⟩
  rw [List.getElem?_eq_getElem hjl] at hj
  exact Option.some.inj hj

/-- C1 (amended): in a complete trick with no Wizard, if the non-Fool card
at position `i` ranks higher than every other non-Fool card played (the
unique maximal candidate, when it exists), then `determine_winner` — the
left fold over play order tracking a running best — returns the player at
position `i`. -/
theorem determine_winner_of_unique_max (t : Trick) (i : Fin t.cards_played.length)
    (hc0 : t.is_complete = true)
    (hnw : ∀ pc ∈ t.cards_played, pc.2.isWizard = false)
    (hxf : (t.cards_played.get i).2.isFool = false)
    (hmax : ∀ j : Fin t.cards_played.length, j ≠ i →
      (t.cards_played.get j).2.isFool = false →
      (t.cards_played.get i).2.is_higher_than (t.cards_played.get j).2
        t.trump_color t.leading_color = true) :
    t.determine_winner.2 = some (t.cards_played.get i).1 := by
  have hxmem : t.cards_played.get i ∈ t.cards_played := List.getElem_mem i.isLt
  have hnall : t.cards_played.all (fun pc => pc.2.isFool) = false := by
    cases hA : t.cards_played.all (fun pc => pc.2.isFool) with
    | false => rfl
    | true =>
        have hf : (t.cards_played.get i).2.isFool = true := by
          simpa using List.all_eq_true.1 hA _ hxmem
        rw [hxf] at hf
        exact absurd hf (by simp)
  have hfind : t.cards_played.find? (fun pc => pc.2.isWizard) = none :=
    List.find?_eq_none.2 (fun x hx => by simp [hnw x hx])
  rw [determine_winner_2_no_wizard t hnall hfind]
  have hdecomp : t.cards_played =
      t.cards_played.take i.1 ++
        t.cards_played.get i :: t.cards_played.drop (i.1 + 1) := by
    have h1 := List.take_append_drop i.1 t.cards_played
    have h2 := List.drop_eq_getElem_cons i.isLt
    rw [h2] at h1
    exact h1.symm
  have hreach : findHighest t.trump_color t.leading_color
      (t.cards_played.take i.1 ++
        t.cards_played.get i :: t.cards_played.drop (i.1 + 1)) none
      = some (t.cards_played.get i) := by
    apply findHighest_reach _ _ _ hxf
    · intro pc hpc hpcf
      obtain ⟨j, hjn, hjget⟩ := mem_take_get _ _ _ hpc
      subst hjget
      have hne : j ≠ i := by
        intro he
        rw [he] at hjn
        omega
      exact hmax j hne hpcf
    · intro pc hpc hpcf
      obtain ⟨j, hjn, hjget⟩ := mem_drop_get _ _ _ hpc
      subst hjget
      have hne : j ≠ i := by
        intro he
        rw [he] at hjn
        omega
      exact is_higher_than_asymm _ _ _ _ (Or.inl (hnw _ hxmem)) (hmax j hne hpcf)
    · intro b hb
      exact Option.noConfusion hb
  conv_lhs => rw [hdecomp]
  rw [hreach]
  rfl

/-- Witness for C1 (amended): in `maxTrick` the elves 10 at position 1
beats every other candidate, and the fold returns player 1. -/
theorem determine_winner_of_unique_max_witness :
    maxTrick.determine_winner.2 = some 1 := by
  have h := determine_winner_of_unique_max maxTrick ⟨1, by decide⟩ rfl
      (by decide) (by decide) (by decide)
  simpa using h
